import Mathlib

/-!
Verification of the zkas compiler core (darkfi).

The static opcode/type table is embedded directly from
`src/zkas/src/opcode.rs`.  The surrounding pipeline modules
(`types.rs`, `ast.rs`, `analyzer.rs`, `compiler.rs`, `decoder.rs`) are
declared in `src/zkas/mod.rs` but their sources are not part of the
checked tree, so those components are modelled from the specification
(sections 3, 4.3, 4.4, 4.5 and 6), as noted on each definition.
-/

/-- Modelled from the spec: `types.rs` is not in the tree.  Section 3 —
the closed set of value kinds flowing through the circuit, plus `Void`
for constraint-only instructions and the error-recovery meta-type
`Dummy`.  Types are compared by identity; no coercion exists. -/
inductive Ty
  | Base
  | Scalar
  | EcPoint
  | EcFixedPoint
  | EcFixedPointShort
  | BaseArray
  | MerklePath
  | Void
  | Dummy
deriving DecidableEq, Repr, Fintype

/-- Opcodes supported by the VM (`src/zkas/src/opcode.rs`, `enum Opcode`). -/
inductive Opcode
  | EcAdd
  | EcMul
  | EcMulShort
  | EcGetX
  | EcGetY
  | PoseidonHash
  | CalculateMerkleRoot
  | ConstrainInstance
  | Noop
deriving DecidableEq, Repr, Fintype

/-- The numeric discriminants assigned in the source enum
(`EcAdd = 0x00`, …, `Noop = 0xff`). -/
def Opcode.toByte : Opcode → Nat
  | .EcAdd => 0x00
  | .EcMul => 0x01
  | .EcMulShort => 0x02
  | .EcGetX => 0x03
  | .EcGetY => 0x04
  | .PoseidonHash => 0x10
  | .CalculateMerkleRoot => 0x20
  | .ConstrainInstance => 0xf0
  | .Noop => 0xff

/-- `Opcode::arg_types` from `src/zkas/src/opcode.rs`: for each opcode
the pair `(return types, argument types)`. -/
def Opcode.arg_types : Opcode → List Ty × List Ty
  | .EcAdd => ([.EcPoint], [.EcPoint, .EcPoint])
  | .EcMul => ([.EcPoint], [.Scalar, .EcFixedPoint])
  | .EcMulShort => ([.EcPoint], [.Base, .EcFixedPoint])
  | .EcGetX => ([.Base], [.EcPoint])
  | .EcGetY => ([.Base], [.EcPoint])
  | .PoseidonHash => ([.Base], [.BaseArray])
  | .CalculateMerkleRoot => ([.Base], [.MerklePath, .Base])
  | .ConstrainInstance => ([], [.Base])
  | .Noop => ([], [])

/-- Modelled from the spec: `decoder.rs` is not in the tree.  Section 4.5
requires the decoder to reject an opcode byte not present in the static
table ("unknown opcode"); this is the partial inverse of the enum
discriminants. -/
def Opcode.ofByte : Nat → Option Opcode
  | 0x00 => some .EcAdd
  | 0x01 => some .EcMul
  | 0x02 => some .EcMulShort
  | 0x03 => some .EcGetX
  | 0x04 => some .EcGetY
  | 0x10 => some .PoseidonHash
  | 0x20 => some .CalculateMerkleRoot
  | 0xf0 => some .ConstrainInstance
  | 0xff => some .Noop
  | _ => none

/-- Identifiers are byte strings; the binary container stores them as
raw bytes, so the model keeps them as byte lists throughout. -/
abbrev Name := List Nat

/-- Modelled from the spec: `error.rs` is not in the tree.  Section 7
semantic-error taxonomy (positions omitted; errors carry the data the
claims inspect). -/
inductive SemErr
  | duplicateDecl (n : Name)
  | undeclaredIdent (n : Name)
  | arityMismatch (o : Opcode) (expected got : Nat)
  | typeMismatch (o : Opcode) (expected got : Ty)
  | missingConstraint
deriving DecidableEq, Repr

/-- Modelled from the spec: `analyzer.rs` is not in the tree.  Section
4.3 / section 8 "Type soundness": a call is accepted exactly when the
argument count matches the opcode's argument-type list and each
position's type matches exactly (no coercion); otherwise the analyzer
fails with an arity or type mismatch naming the opcode.
`checkTysAgainst` is the pointwise identity check of the actual
argument types against the expected ones; it is called only with lists
of equal length. -/
def checkTysAgainst (o : Opcode) : List Ty → List Ty → Except SemErr Unit
  | [], _ => .ok ()
  | _, [] => .ok ()
  | t :: ts, e :: es =>
    if t = e then checkTysAgainst o ts es else .error (.typeMismatch o e t)

def checkCall (o : Opcode) (tys : List Ty) : Except SemErr Unit :=
  if tys.length ≠ (o.arg_types).2.length then
    .error (.arityMismatch o (o.arg_types).2.length tys.length)
  else
    checkTysAgainst o tys (o.arg_types).2

theorem checkTysAgainst_isOk_iff (o : Opcode) :
    ∀ (ts es : List Ty), ts.length = es.length →
      ((checkTysAgainst o ts es).isOk = true ↔ ts = es) := by
  intro ts
  induction ts with
  | nil =>
    intro es h
    cases es with
    | nil => simp [checkTysAgainst, Except.isOk, Except.toBool]
    | cons e es => simp at h
  | cons t ts ih =>
    intro es h
    cases es with
    | nil => simp at h
    | cons e es =>
      by_cases hte : t = e
      · subst hte
        have hstep : checkTysAgainst o (t :: ts) (t :: es) = checkTysAgainst o ts es := by
          simp [checkTysAgainst]
        rw [hstep, ih es (by simpa using h)]
        simp
      · simp only [checkTysAgainst, if_neg hte]
        simp only [Except.isOk, Except.toBool]
        constructor
        · intro hcon; cases hcon
        · intro hcon
          exact absurd (by injection hcon) hte

theorem checkCall_isOk_iff (o : Opcode) (tys : List Ty) :
    (checkCall o tys).isOk = true ↔ tys = (o.arg_types).2 := by
  unfold checkCall
  by_cases hlen : tys.length = (o.arg_types).2.length
  · rw [if_neg (by simp [hlen])]
    exact checkTysAgainst_isOk_iff o tys (o.arg_types).2 hlen
  · rw [if_pos hlen]
    simp only [Except.isOk, Except.toBool]
    constructor
    · intro h; cases h
    · intro h
      exact absurd (by rw [h]) hlen

/-- Modelled from the spec: `ast.rs` is not in the tree.  Section 3 —
an argument is a previously declared name or an integer literal. -/
inductive Arg
  | var (n : Name)
  | lit (v : Nat)
deriving DecidableEq, Repr

/-- Modelled from the spec: `ast.rs` is not in the tree.  Section 3 —
an instruction-bearing statement records the opcode, the ordered
argument references and the optional result-binding name (`none` for
bare calls of void opcodes). -/
structure Stmt where
  result : Option Name
  opcode : Opcode
  args : List Arg
deriving DecidableEq, Repr

/-- Modelled from the spec: `ast.rs` is not in the tree.  Section 2/3 —
one circuit: a constant section, a witness section and the ordered
statements of the body, in declaration order. -/
structure Ast where
  constants : List (Name × Ty)
  witnesses : List (Name × Ty)
  statements : List Stmt
deriving DecidableEq, Repr

/-- First-match lookup of a declared name in a declaration section. -/
def lookupTy : List (Name × Ty) → Name → Option Ty
  | [], _ => none
  | (m, t) :: rest, n => if n = m then some t else lookupTy rest n

/-- Position of a declared name in its section; that position is its
pool index in the binary (section 4.4: pool index equals declaration
order). -/
def idxOfName : List (Name × Ty) → Name → Option Nat
  | [], _ => none
  | (m, _) :: rest, n => if n = m then some 0 else (idxOfName rest n).map (· + 1)

/-- First-match lookup of a local result binding: its type and the
result slot of the instruction that produced it. -/
def lookupLocal : List (Name × Ty × Nat) → Name → Option (Ty × Nat)
  | [], _ => none
  | (m, p) :: rest, n => if n = m then some p else lookupLocal rest n

/-- Position of a literal value in the literal pool. -/
def idxOfLit : List Nat → Nat → Option Nat
  | [], _ => none
  | x :: rest, v => if v = x then some 0 else (idxOfLit rest v).map (· + 1)

/-- Modelled from the spec: `analyzer.rs` is not in the tree.  Section 3
symbol table, split by declaration kind: constants, witnesses, and the
local result bindings made so far (each with the result slot that the
code generator will assign, fixing the execution order, section 4.3). -/
structure Env where
  consts : List (Name × Ty)
  wits : List (Name × Ty)
  locals : List (Name × Ty × Nat)
deriving DecidableEq, Repr

/-- Resolve a name: local results shadow nothing (duplicate
declarations are rejected), so lookup order is locals, constants,
witnesses. -/
def Env.lookupVarTy (e : Env) (n : Name) : Option Ty :=
  match lookupLocal e.locals n with
  | some p => some p.1
  | none =>
    match lookupTy e.consts n with
    | some t => some t
    | none => lookupTy e.wits n

def Env.declared (e : Env) (n : Name) : Bool :=
  (e.lookupVarTy n).isSome

/-- Modelled from the spec: section 4.3 — resolve each argument against
the symbol table ("undeclared identifier" if missing) or accept it as a
literal; an integer literal stands for a native field element. -/
def argTysOf (e : Env) : List Arg → Except SemErr (List Ty)
  | [] => .ok []
  | .lit _ :: rest =>
    match argTysOf e rest with
    | .ok ts => .ok (Ty.Base :: ts)
    | .error err => .error err
  | .var n :: rest =>
    match e.lookupVarTy n with
    | none => .error (.undeclaredIdent n)
    | some t =>
      match argTysOf e rest with
      | .ok ts => .ok (t :: ts)
      | .error err => .error err

/-- Modelled from the spec: section 4.3 — per-statement analysis: type
the arguments, check the call against the opcode table, then require
return arity one for assignments (binding the result name, duplicate
declarations rejected) and return arity zero for bare calls.  `k` is
the next result slot. -/
def analyzeStmts : Env → Nat → List Stmt → Except SemErr Unit
  | _, _, [] => .ok ()
  | e, k, s :: rest =>
    match argTysOf e s.args with
    | .error err => .error err
    | .ok tys =>
      match checkCall s.opcode tys with
      | .error err => .error err
      | .ok _ =>
        match s.result, (s.opcode.arg_types).1 with
        | some n, [rt] =>
          if e.declared n then .error (.duplicateDecl n)
          else analyzeStmts ⟨e.consts, e.wits, (n, rt, k) :: e.locals⟩ (k + 1) rest
        | some _, rts => .error (.arityMismatch s.opcode 1 rts.length)
        | none, [] => analyzeStmts e k rest
        | none, rts => .error (.arityMismatch s.opcode 0 rts.length)

/-- Modelled from the spec: section 4.3 — register the constant and
witness declarations, failing with "duplicate declaration" on a
repeated name. -/
def checkDecls : List Name → List (Name × Ty) → Except SemErr Unit
  | _, [] => .ok ()
  | seen, (n, _) :: rest =>
    if n ∈ seen then .error (.duplicateDecl n)
    else checkDecls (n :: seen) rest

def hasConstraint (ss : List Stmt) : Bool :=
  ss.any fun s => s.opcode == Opcode.ConstrainInstance

/-- Modelled from the spec: section 4.3 — whole-program semantic
analysis: declarations, then statements, then the requirement of at
least one `ConstrainInstance`. -/
def analyzeAst (a : Ast) : Except SemErr Unit :=
  match checkDecls [] (a.constants ++ a.witnesses) with
  | .error err => .error err
  | .ok _ =>
    match analyzeStmts ⟨a.constants, a.witnesses, []⟩ 0 a.statements with
    | .error err => .error err
    | .ok _ =>
      if hasConstraint a.statements then .ok () else .error .missingConstraint

def analyze (a : Ast) : Bool :=
  (analyzeAst a).isOk

/-- Embedding of one invocation of `Opcode::arg_types` against an
ambient program state: the source reads only the opcode tag and
allocates fresh vectors, so the result ignores the state and the state
is returned unchanged. -/
def argTypesInvoke (o : Opcode) (st : List Nat) : (List Ty × List Ty) × List Nat :=
  (o.arg_types, st)

/-- C2: the semantic analyzer accepts a call `O(A)` if and only if the
number of arguments equals the length of `O`'s argument-type list in
the static opcode table and each position's declared type equals the
expected type exactly, with no coercion. -/
theorem analyzer_type_soundness (o : Opcode) (tys : List Ty) :
    (checkCall o tys).isOk = true ↔
      tys.length = (o.arg_types).2.length ∧
      ∀ (i : Nat) (h1 : i < tys.length) (h2 : i < (o.arg_types).2.length),
        tys.get ⟨i, h1⟩ = ((o.arg_types).2).get ⟨i, h2⟩ := by
  rw [checkCall_isOk_iff]
  constructor
  · intro h
    subst h
    exact ⟨rfl, fun i h1 h2 => rfl⟩
  · intro ⟨hlen, hpt⟩
    exact List.ext_get hlen hpt

/-- C2 witness: the soundness equivalence evaluated at `EcAdd` applied
to two `EcPoint` arguments. -/
theorem analyzer_type_soundness_witness :
    (checkCall .EcAdd [Ty.EcPoint, Ty.EcPoint]).isOk = true ↔
      [Ty.EcPoint, Ty.EcPoint].length = ((Opcode.EcAdd).arg_types).2.length ∧
      ∀ (i : Nat) (h1 : i < [Ty.EcPoint, Ty.EcPoint].length)
        (h2 : i < ((Opcode.EcAdd).arg_types).2.length),
        [Ty.EcPoint, Ty.EcPoint].get ⟨i, h1⟩ = (((Opcode.EcAdd).arg_types).2).get ⟨i, h2⟩ :=
  analyzer_type_soundness .EcAdd [Ty.EcPoint, Ty.EcPoint]

/-- C3: the opcode enumeration carries exactly the stable numeric
encodings fixed in the source enum. -/
theorem opcode_stable_encodings :
    Opcode.toByte .EcAdd = 0x00 ∧ Opcode.toByte .EcMul = 0x01 ∧
    Opcode.toByte .EcMulShort = 0x02 ∧ Opcode.toByte .EcGetX = 0x03 ∧
    Opcode.toByte .EcGetY = 0x04 ∧ Opcode.toByte .PoseidonHash = 0x10 ∧
    Opcode.toByte .CalculateMerkleRoot = 0x20 ∧
    Opcode.toByte .ConstrainInstance = 0xf0 ∧ Opcode.toByte .Noop = 0xff := by
  decide

/-- C4: the opcode/type table is total — for every opcode the signature
lookup returns a defined pair of return types and argument types, with
no failure branch. -/
theorem opcode_table_total :
    ∀ o : Opcode, ∃ rts ats, Opcode.arg_types o = (rts, ats) :=
  fun o => ⟨(Opcode.arg_types o).1, (Opcode.arg_types o).2, rfl⟩

/-- C5: every opcode's return-type sequence has length at most one, and
`ConstrainInstance` returns nothing. -/
theorem return_arity_at_most_one :
    (∀ o : Opcode, (Opcode.arg_types o).1.length ≤ 1) ∧
    (Opcode.arg_types .ConstrainInstance).1 = [] := by
  decide

/-- C6: the table assigns `EcAdd` exactly two argument types, both
`EcPoint`, and the analyzer rejects `EcAdd` applied to a single
`Base`-typed argument with an arity mismatch naming `EcAdd`. -/
theorem ecadd_two_ecpoint_args :
    (Opcode.arg_types .EcAdd).2 = [Ty.EcPoint, Ty.EcPoint] ∧
    checkCall .EcAdd [Ty.Base] = .error (.arityMismatch .EcAdd 2 1) :=
  ⟨rfl, rfl⟩

/-- C8: the opcode signature lookup is deterministic and free of
mutable state — an invocation ignores the ambient state, leaves it
unchanged, and always returns the static table entry. -/
theorem arg_types_stateless :
    ∀ (o : Opcode) (s1 s2 : List Nat),
      (argTypesInvoke o s1).1 = (argTypesInvoke o s2).1 ∧
      (argTypesInvoke o s1).2 = s1 ∧
      (argTypesInvoke o s1).1 = Opcode.arg_types o :=
  fun _ _ _ => ⟨rfl, rfl, rfl⟩

/-- C9: no opcode's signature mentions `EcFixedPointShort` (in
particular `EcMulShort` takes a `Base` and an `EcFixedPoint`), so an
accepted argument list never contains an `EcFixedPointShort`-typed
variable. -/
theorem no_ecfixedpointshort_in_table :
    (∀ o : Opcode, Ty.EcFixedPointShort ∉ (Opcode.arg_types o).1 ∧
        Ty.EcFixedPointShort ∉ (Opcode.arg_types o).2) ∧
    (Opcode.arg_types .EcMulShort).2 = [Ty.Base, Ty.EcFixedPoint] ∧
    (∀ (o : Opcode) (tys : List Ty), (checkCall o tys).isOk = true →
        Ty.EcFixedPointShort ∉ tys) := by
  refine ⟨by decide, by decide, ?_⟩
  intro o tys h
  rw [checkCall_isOk_iff] at h
  subst h
  exact (by decide : ∀ o : Opcode, Ty.EcFixedPointShort ∉ (Opcode.arg_types o).2) o

/-- C10: every value-producing opcode returns `EcPoint` or `Base`; no
other type ever appears as a return type in the table. -/
theorem result_types_ecpoint_or_base :
    ∀ o : Opcode,
      (∀ t ∈ (Opcode.arg_types o).1, t = Ty.EcPoint ∨ t = Ty.Base) ∧
      ((Opcode.arg_types o).1 ≠ [] →
        (Opcode.arg_types o).1 = [Ty.EcPoint] ∨ (Opcode.arg_types o).1 = [Ty.Base]) := by
  decide

/-- Variable-length integer encoding (section 4.4/6): seven value bits
per byte, high bit set on every byte but the last, least-significant
group first.  `fuel` bounds the recursion; `encodeVarint` supplies
`n` itself, which is always enough. -/
def encVar : Nat → Nat → List Nat
  | n, 0 => [n % 128]
  | n, fuel + 1 => if n < 128 then [n] else (128 + n % 128) :: encVar (n / 128) fuel

def encodeVarint (n : Nat) : List Nat :=
  encVar n n

/-- Modelled from the spec: `decoder.rs` is not in the tree.  Varint
decoding; fails ("unexpected end of input") on an empty buffer or a
continuation byte with nothing after it. -/
def decodeVarint : List Nat → Option (Nat × List Nat)
  | [] => none
  | b :: rest =>
    if b < 128 then some (b, rest)
    else
      match decodeVarint rest with
      | some (v, r) => some ((b - 128) + 128 * v, r)
      | none => none

/-- Take exactly `k` bytes, failing ("unexpected end of input") when
the buffer is shorter. -/
def readBytes (k : Nat) (bs : List Nat) : Option (List Nat × List Nat) :=
  if k ≤ bs.length then some (bs.take k, bs.drop k) else none

/-- A pool entry (constant or witness name): varint length followed by
the raw bytes. -/
def encodeName (n : Name) : List Nat :=
  encodeVarint n.length ++ n

def decodeName (bs : List Nat) : Option (Name × List Nat) :=
  match decodeVarint bs with
  | none => none
  | some (len, rest) => readBytes len rest

/-- Decode exactly `k` entries with the given entry decoder. -/
def decodeList {α : Type} (dec : List Nat → Option (α × List Nat)) :
    Nat → List Nat → Option (List α × List Nat)
  | 0, bs => some ([], bs)
  | k + 1, bs =>
    match dec bs with
    | none => none
    | some (x, rest) =>
      match decodeList dec k rest with
      | none => none
      | some (xs, rest2) => some (x :: xs, rest2)

/-- Modelled from the spec: `compiler.rs` is not in the tree.  Section
4.4/6 — a resolved argument reference: an index into the constant pool,
the witness pool, the literal pool, or a prior instruction's result
slot.  Names exist only pre-compilation. -/
inductive ArgRef
  | cnst (i : Nat)
  | wtns (i : Nat)
  | lit (i : Nat)
  | prior (i : Nat)
deriving DecidableEq, Repr

/-- Section 6: each argument reference is a tag byte (0 = constant,
1 = witness, 2 = literal, 3 = prior result) followed by a varint
index. -/
def encodeArgRef : ArgRef → List Nat
  | .cnst i => 0 :: encodeVarint i
  | .wtns i => 1 :: encodeVarint i
  | .lit i => 2 :: encodeVarint i
  | .prior i => 3 :: encodeVarint i

/-- Section 4.5: an argument reference is valid when its index lies
inside the pool its tag names (`np` is the number of result slots
assigned by earlier instructions). -/
def ArgRef.inBounds (nc nw nl np : Nat) : ArgRef → Bool
  | .cnst i => decide (i < nc)
  | .wtns i => decide (i < nw)
  | .lit i => decide (i < nl)
  | .prior i => decide (i < np)

/-- Modelled from the spec: `decoder.rs` is not in the tree.  Decode one
argument reference, rejecting an unknown tag and any out-of-bounds
index ("invalid reference"). -/
def decodeArgRef (nc nw nl np : Nat) : List Nat → Option (ArgRef × List Nat)
  | [] => none
  | tag :: rest =>
    match decodeVarint rest with
    | none => none
    | some (i, rest2) =>
      match tag with
      | 0 => if i < nc then some (.cnst i, rest2) else none
      | 1 => if i < nw then some (.wtns i, rest2) else none
      | 2 => if i < nl then some (.lit i, rest2) else none
      | 3 => if i < np then some (.prior i, rest2) else none
      | _ => none

/-- Modelled from the spec: section 3 — one emitted instruction: the
opcode, the resolved argument references, and the result slot when the
opcode produces a value. -/
structure Instruction where
  opcode : Opcode
  args : List ArgRef
  result : Option Nat
deriving DecidableEq, Repr

/-- Section 6: `[opcode(1B)][arg_count(1B)][arg_ref…][has_result(1B)]
[result_slot(varint, if present)]`. -/
def encodeInstruction (ins : Instruction) : List Nat :=
  ins.opcode.toByte :: ins.args.length ::
    ((ins.args.map encodeArgRef).flatten ++
      match ins.result with
      | some s => 1 :: encodeVarint s
      | none => [0])

/-- Modelled from the spec: `decoder.rs` is not in the tree.  Decode one
instruction, rejecting an unknown opcode byte and a has-result byte
other than 0 or 1. -/
def decodeInstruction (nc nw nl np : Nat) (bs : List Nat) :
    Option (Instruction × List Nat) :=
  match bs with
  | op :: cnt :: rest =>
    match Opcode.ofByte op with
    | none => none
    | some o =>
      match decodeList (decodeArgRef nc nw nl np) cnt rest with
      | none => none
      | some (args, rest2) =>
        match rest2 with
        | 1 :: rest3 =>
          match decodeVarint rest3 with
          | none => none
          | some (s, rest4) => some (⟨o, args, some s⟩, rest4)
        | 0 :: rest3 => some (⟨o, args, none⟩, rest3)
        | _ => none
  | _ => none

/-- Decode exactly `k` instructions, threading the count of result
slots assigned so far for the prior-result bounds check. -/
def decodeInstructions (nc nw nl : Nat) : Nat → Nat → List Nat → Option (List Instruction × List Nat)
  | _, 0, bs => some ([], bs)
  | np, k + 1, bs =>
    match decodeInstruction nc nw nl np bs with
    | none => none
    | some (i, rest) =>
      match decodeInstructions nc nw nl (np + if i.result.isSome then 1 else 0) k rest with
      | none => none
      | some (is, rest2) => some (i :: is, rest2)

/-- Modelled from the spec: section 3 — the compiled program in
structured form: constant pool, witness pool, literal pool and the
instruction stream, exactly what the decoder reconstructs. -/
structure Program where
  constants : List Name
  witnesses : List Name
  literals : List Nat
  instructions : List Instruction
deriving DecidableEq, Repr

/-- The 4-byte magic marker (the concrete value is fixed but not given
by the spec) and the format version byte. -/
def MAGIC : List Nat := [0x0b, 0x01, 0xb1, 0x35]

def VERSION : Nat := 1

/-- Modelled from the spec: `compiler.rs` is not in the tree.  Section 6
container layout: magic, version, then the three pools (each a varint
count followed by its entries) and the instruction stream in program
order. -/
def encode (p : Program) : List Nat :=
  MAGIC ++ VERSION ::
    (encodeVarint p.constants.length ++ ((p.constants.map encodeName).flatten ++
      (encodeVarint p.witnesses.length ++ ((p.witnesses.map encodeName).flatten ++
        (encodeVarint p.literals.length ++ ((p.literals.map encodeVarint).flatten ++
          (encodeVarint p.instructions.length ++
            (p.instructions.map encodeInstruction).flatten)))))))

/-- Modelled from the spec: `decoder.rs` is not in the tree.  Section
4.5 — parse a binary container back into the structured program,
rejecting a bad magic or version, truncation, unknown opcodes and
out-of-bounds references; trailing bytes are also rejected. -/
def decode (bs : List Nat) : Option Program :=
  match bs with
  | 0x0b :: 0x01 :: 0xb1 :: 0x35 :: v :: rest =>
    if v ≠ VERSION then none
    else
      match decodeVarint rest with
      | none => none
      | some (nc, r1) =>
        match decodeList decodeName nc r1 with
        | none => none
        | some (cs, r2) =>
          match decodeVarint r2 with
          | none => none
          | some (nw, r3) =>
            match decodeList decodeName nw r3 with
            | none => none
            | some (ws, r4) =>
              match decodeVarint r4 with
              | none => none
              | some (nl, r5) =>
                match decodeList decodeVarint nl r5 with
                | none => none
                | some (ls, r6) =>
                  match decodeVarint r6 with
                  | none => none
                  | some (ni, r7) =>
                    match decodeInstructions cs.length ws.length ls.length 0 ni r7 with
                    | none => none
                    | some (is, r8) =>
                      if r8 = [] then some ⟨cs, ws, ls, is⟩ else none
  | _ => none

/-- Literal-pool construction (section 3: inline numeric literals,
deduplicated, first occurrence order). -/
def insertLit (p : List Nat) (v : Nat) : List Nat :=
  if v ∈ p then p else p ++ [v]

def litStep (q : List Nat) (a : Arg) : List Nat :=
  match a with
  | .lit v => insertLit q v
  | .var _ => q

def stmtLits (p : List Nat) (s : Stmt) : List Nat :=
  s.args.foldl litStep p

def literalPool (ss : List Stmt) : List Nat :=
  ss.foldl stmtLits []

/-- Modelled from the spec: `compiler.rs` is not in the tree.  Section
4.4 — resolve one argument to a reference: a local result becomes its
prior-result slot, a constant or witness its declaration-order pool
index, a literal its literal-pool index. -/
def resolveArg (e : Env) (lp : List Nat) : Arg → Option ArgRef
  | .lit v => (idxOfLit lp v).map .lit
  | .var n =>
    match lookupLocal e.locals n with
    | some p => some (.prior p.2)
    | none =>
      match idxOfName e.consts n with
      | some i => some (.cnst i)
      | none => (idxOfName e.wits n).map .wtns

def resolveArgs (e : Env) (lp : List Nat) : List Arg → Option (List ArgRef)
  | [] => some []
  | a :: rest =>
    match resolveArg e lp a with
    | none => none
    | some r =>
      match resolveArgs e lp rest with
      | none => none
      | some rs => some (r :: rs)

/-- Modelled from the spec: `compiler.rs` is not in the tree.  Section
4.4 — single pass over the statement list: resolve the arguments, emit
the instruction, and give each value-producing statement the next
monotonically increasing result slot `k`. -/
def lowerStmts (lp : List Nat) : Env → Nat → List Stmt → Option (List Instruction)
  | _, _, [] => some []
  | e, k, s :: rest =>
    match resolveArgs e lp s.args with
    | none => none
    | some args =>
      match s.result, (s.opcode.arg_types).1 with
      | some n, [rt] =>
        match lowerStmts lp ⟨e.consts, e.wits, (n, rt, k) :: e.locals⟩ (k + 1) rest with
        | none => none
        | some is => some (⟨s.opcode, args, some k⟩ :: is)
      | some _, _ => none
      | none, [] =>
        match lowerStmts lp e k rest with
        | none => none
        | some is => some (⟨s.opcode, args, none⟩ :: is)
      | none, _ => none

/-- Lower an analyzed program: pools in declaration order plus the
instruction stream. -/
def lower (a : Ast) : Option Program :=
  match lowerStmts (literalPool a.statements) ⟨a.constants, a.witnesses, []⟩ 0 a.statements with
  | none => none
  | some is =>
    some ⟨a.constants.map Prod.fst, a.witnesses.map Prod.fst, literalPool a.statements, is⟩

/-- The code generator: lower the analyzed AST and serialize it. -/
def compile (a : Ast) : Option (List Nat) :=
  (lower a).map encode

/-- The compile pipeline from the analyzed AST on: section 7 — a
failure in an earlier stage prevents invocation of all later stages, so
code generation runs only when semantic analysis succeeded. -/
def compilePipeline (a : Ast) : Option (List Nat) :=
  if analyze a then compile a else none

/-- One invocation of the compiler against an ambient program state:
the pipeline touches no process-wide mutable state, so the state is
ignored and returned unchanged. -/
def compileRun (a : Ast) (st : List Nat) : Option (List Nat) × List Nat :=
  (compilePipeline a, st)

/-- Well-formedness of an emitted instruction relative to the pool
sizes and the number of result slots assigned so far. -/
def instrWf (nc nw nl np : Nat) (i : Instruction) : Bool :=
  decide (i.args.length < 256) && i.args.all (ArgRef.inBounds nc nw nl np)

def instrsWf (nc nw nl : Nat) : Nat → List Instruction → Bool
  | _, [] => true
  | np, i :: is =>
    instrWf nc nw nl np i && instrsWf nc nw nl (np + if i.result.isSome then 1 else 0) is

def Program.wf (p : Program) : Bool :=
  instrsWf p.constants.length p.witnesses.length p.literals.length 0 p.instructions

theorem decodeVarint_encVar (rest : List Nat) :
    ∀ (fuel n : Nat), n ≤ fuel →
      decodeVarint (encVar n fuel ++ rest) = some (n, rest) := by
  intro fuel
  induction fuel with
  | zero =>
    intro n h
    have hn : n = 0 := Nat.le_zero.mp h
    subst hn
    simp [encVar, decodeVarint]
  | succ fuel ih =>
    intro n h
    by_cases h128 : n < 128
    · simp [encVar, h128, decodeVarint]
    · have hpos : 0 < n := by omega
      have hlt : n / 128 < n := Nat.div_lt_self hpos (by norm_num)
      have hrec : n / 128 ≤ fuel := by omega
      have hb : ¬ (128 + n % 128 < 128) := by omega
      simp only [encVar, if_neg h128, List.cons_append]
      simp only [decodeVarint, if_neg hb]
      rw [ih (n / 128) hrec]
      simp only [Option.some.injEq, Prod.mk.injEq]
      refine ⟨?_, trivial⟩
      have := Nat.mod_add_div n 128
      omega

theorem decodeVarint_encodeVarint (n : Nat) (rest : List Nat) :
    decodeVarint (encodeVarint n ++ rest) = some (n, rest) :=
  decodeVarint_encVar rest n n le_rfl

theorem decodeName_encodeName (nm : Name) (rest : List Nat) :
    decodeName (encodeName nm ++ rest) = some (nm, rest) := by
  unfold decodeName encodeName
  rw [List.append_assoc, decodeVarint_encodeVarint]
  simp only []
  unfold readBytes
  rw [if_pos (by simp)]
  rw [List.take_left, List.drop_left]

theorem decodeList_encode {α : Type} (dec : List Nat → Option (α × List Nat))
    (enc : α → List Nat) :
    ∀ (xs : List α), (∀ x ∈ xs, ∀ r, dec (enc x ++ r) = some (x, r)) →
      ∀ (rest : List Nat),
        decodeList dec xs.length ((xs.map enc).flatten ++ rest) = some (xs, rest) := by
  intro xs
  induction xs with
  | nil =>
    intro _ rest
    simp [decodeList]
  | cons x xs ih =>
    intro hdec rest
    simp only [List.map_cons, List.flatten_cons, List.length_cons, List.append_assoc]
    simp only [decodeList]
    rw [hdec x (by simp) _]
    simp only []
    rw [ih (fun y hy r => hdec y (by simp [hy]) r) rest]

theorem decodeList_name (cs : List Name) (rest : List Nat) :
    decodeList decodeName cs.length ((cs.map encodeName).flatten ++ rest) = some (cs, rest) :=
  decodeList_encode decodeName encodeName cs (fun x _ r => decodeName_encodeName x r) rest

theorem decodeList_lit (ls : List Nat) (rest : List Nat) :
    decodeList decodeVarint ls.length ((ls.map encodeVarint).flatten ++ rest) = some (ls, rest) :=
  decodeList_encode decodeVarint encodeVarint ls (fun x _ r => decodeVarint_encodeVarint x r) rest

theorem ofByte_toByte (o : Opcode) : Opcode.ofByte o.toByte = some o := by
  cases o <;> rfl

theorem decodeArgRef_encodeArgRef (nc nw nl np : Nat) (r : ArgRef)
    (h : r.inBounds nc nw nl np = true) (rest : List Nat) :
    decodeArgRef nc nw nl np (encodeArgRef r ++ rest) = some (r, rest) := by
  cases r with
  | cnst i =>
    simp only [ArgRef.inBounds, decide_eq_true_eq] at h
    simp only [encodeArgRef, List.cons_append, decodeArgRef]
    rw [decodeVarint_encodeVarint]
    simp [h]
  | wtns i =>
    simp only [ArgRef.inBounds, decide_eq_true_eq] at h
    simp only [encodeArgRef, List.cons_append, decodeArgRef]
    rw [decodeVarint_encodeVarint]
    simp [h]
  | lit i =>
    simp only [ArgRef.inBounds, decide_eq_true_eq] at h
    simp only [encodeArgRef, List.cons_append, decodeArgRef]
    rw [decodeVarint_encodeVarint]
    simp [h]
  | prior i =>
    simp only [ArgRef.inBounds, decide_eq_true_eq] at h
    simp only [encodeArgRef, List.cons_append, decodeArgRef]
    rw [decodeVarint_encodeVarint]
    simp [h]

theorem decodeInstruction_encodeInstruction (nc nw nl np : Nat) (i : Instruction)
    (h : instrWf nc nw nl np i = true) (rest : List Nat) :
    decodeInstruction nc nw nl np (encodeInstruction i ++ rest) = some (i, rest) := by
  obtain ⟨o, args, res⟩ := i
  simp only [instrWf, Bool.and_eq_true, List.all_eq_true] at h
  obtain ⟨-, hbounds⟩ := h
  cases res with
  | some s =>
    simp only [encodeInstruction, List.cons_append, List.append_assoc]
    simp only [decodeInstruction]
    rw [ofByte_toByte]
    simp only []
    rw [decodeList_encode (decodeArgRef nc nw nl np) encodeArgRef args
          (fun r hr q => decodeArgRef_encodeArgRef nc nw nl np r (hbounds r hr) q) _]
    simp only [List.cons_append]
    rw [decodeVarint_encodeVarint]
  | none =>
    simp only [encodeInstruction, List.cons_append, List.append_assoc]
    simp only [decodeInstruction]
    rw [ofByte_toByte]
    simp only []
    rw [decodeList_encode (decodeArgRef nc nw nl np) encodeArgRef args
          (fun r hr q => decodeArgRef_encodeArgRef nc nw nl np r (hbounds r hr) q) _]
    simp only [List.cons_append]
    rfl

theorem decodeInstructions_encode (nc nw nl : Nat) :
    ∀ (is : List Instruction) (np : Nat) (rest : List Nat),
      instrsWf nc nw nl np is = true →
      decodeInstructions nc nw nl np is.length ((is.map encodeInstruction).flatten ++ rest) =
        some (is, rest) := by
  intro is
  induction is with
  | nil =>
    intro np rest _
    simp [decodeInstructions]
  | cons i is ih =>
    intro np rest h
    simp only [instrsWf, Bool.and_eq_true] at h
    obtain ⟨h1, h2⟩ := h
    simp only [List.map_cons, List.flatten_cons, List.length_cons, List.append_assoc]
    simp only [decodeInstructions]
    rw [decodeInstruction_encodeInstruction nc nw nl np i h1]
    simp only []
    rw [ih (np + if i.result.isSome then 1 else 0) rest h2]

theorem decode_encode (p : Program) (h : p.wf = true) :
    decode (encode p) = some p := by
  obtain ⟨cs, ws, ls, is⟩ := p
  simp only [Program.wf] at h
  simp only [encode, MAGIC, VERSION, List.cons_append, List.nil_append, List.append_assoc]
  simp only [decode]
  rw [if_neg (by simp [VERSION])]
  rw [decodeVarint_encodeVarint]
  simp only []
  rw [decodeList_name]
  simp only []
  rw [decodeVarint_encodeVarint]
  simp only []
  rw [decodeList_name]
  simp only []
  rw [decodeVarint_encodeVarint]
  simp only []
  rw [decodeList_lit]
  simp only []
  rw [decodeVarint_encodeVarint]
  simp only []
  rw [show (is.map encodeInstruction).flatten =
        (is.map encodeInstruction).flatten ++ ([] : List Nat) from (List.append_nil _).symm]
  rw [decodeInstructions_encode cs.length ws.length ls.length is 0 [] h]
  simp only []
  rfl

theorem lookupTy_none_iff_idxOfName_none :
    ∀ (ds : List (Name × Ty)) (n : Name),
      lookupTy ds n = none ↔ idxOfName ds n = none := by
  intro ds
  induction ds with
  | nil => intro n; simp [lookupTy, idxOfName]
  | cons d rest ih =>
    intro n
    obtain ⟨m, t⟩ := d
    by_cases hnm : n = m
    · simp [lookupTy, idxOfName, hnm]
    · simp [lookupTy, idxOfName, hnm, ih n]

theorem idxOfName_lt :
    ∀ (ds : List (Name × Ty)) (n : Name) (i : Nat),
      idxOfName ds n = some i → i < ds.length := by
  intro ds
  induction ds with
  | nil => intro n i h; exact Option.noConfusion h
  | cons d rest ih =>
    intro n i h
    obtain ⟨m, t⟩ := d
    by_cases hnm : n = m
    · simp only [idxOfName, if_pos hnm, Option.some.injEq] at h
      subst h
      simp
    · simp only [idxOfName, if_neg hnm, Option.map_eq_some'] at h
      obtain ⟨j, hj, hij⟩ := h
      have := ih n j hj
      simp only [List.length_cons]
      omega

theorem idxOfName_isSome_of_lookupTy (ds : List (Name × Ty)) (n : Name) (t : Ty)
    (h : lookupTy ds n = some t) : ∃ i, idxOfName ds n = some i := by
  cases hi : idxOfName ds n with
  | some i => exact ⟨i, rfl⟩
  | none =>
    rw [← lookupTy_none_iff_idxOfName_none] at hi
    rw [h] at hi
    exact Option.noConfusion hi

theorem lookupLocal_mem :
    ∀ (ls : List (Name × Ty × Nat)) (n : Name) (p : Ty × Nat),
      lookupLocal ls n = some p → (n, p) ∈ ls := by
  intro ls
  induction ls with
  | nil => intro n p h; exact Option.noConfusion h
  | cons x rest ih =>
    intro n p h
    obtain ⟨m, q⟩ := x
    by_cases hnm : n = m
    · subst hnm
      simp [lookupLocal] at h
      subst h
      exact List.mem_cons_self _ _
    · simp [lookupLocal, hnm] at h
      exact List.mem_cons_of_mem _ (ih n p h)

theorem idxOfLit_of_mem :
    ∀ (lp : List Nat) (v : Nat), v ∈ lp →
      ∃ i, idxOfLit lp v = some i ∧ i < lp.length := by
  intro lp
  induction lp with
  | nil => simp
  | cons x rest ih =>
    intro v hv
    by_cases hvx : v = x
    · exact ⟨0, by simp [idxOfLit, hvx], by simp⟩
    · have hmem : v ∈ rest := by
        rcases List.mem_cons.mp hv with h | h
        · exact absurd h hvx
        · exact h
      obtain ⟨i, hi, hlt⟩ := ih v hmem
      refine ⟨i + 1, by simp [idxOfLit, hvx, hi], ?_⟩
      simp only [List.length_cons]
      omega

theorem resolveArg_var_ok (e : Env) (lp : List Nat) (k : Nat)
    (hloc : ∀ x ∈ e.locals, x.2.2 < k) (n : Name) (t : Ty)
    (hl : e.lookupVarTy n = some t) :
    ∃ r, resolveArg e lp (.var n) = some r ∧
      r.inBounds e.consts.length e.wits.length lp.length k = true := by
  unfold Env.lookupVarTy at hl
  cases hll : lookupLocal e.locals n with
  | some p =>
    have hmem : (n, p) ∈ e.locals := lookupLocal_mem _ _ _ hll
    have hlt : p.2 < k := by
      have := hloc (n, p) hmem
      simpa using this
    refine ⟨.prior p.2, ?_, ?_⟩
    · simp [resolveArg, hll]
    · simp [ArgRef.inBounds, hlt]
  | none =>
    rw [hll] at hl
    simp only [] at hl
    cases hc : lookupTy e.consts n with
    | some tc =>
      obtain ⟨i, hi⟩ := idxOfName_isSome_of_lookupTy e.consts n tc hc
      refine ⟨.cnst i, ?_, ?_⟩
      · simp [resolveArg, hll, hi]
      · simp [ArgRef.inBounds, idxOfName_lt e.consts n i hi]
    | none =>
      rw [hc] at hl
      simp only [] at hl
      have hcn : idxOfName e.consts n = none :=
        (lookupTy_none_iff_idxOfName_none e.consts n).mp hc
      obtain ⟨i, hi⟩ := idxOfName_isSome_of_lookupTy e.wits n t hl
      refine ⟨.wtns i, ?_, ?_⟩
      · simp [resolveArg, hll, hcn, hi]
      · simp [ArgRef.inBounds, idxOfName_lt e.wits n i hi]

theorem arg_types_len_le (o : Opcode) : (Opcode.arg_types o).2.length ≤ 2 := by
  cases o <;> simp [Opcode.arg_types]

theorem resolveArgs_ok (e : Env) (lp : List Nat) (k : Nat)
    (hloc : ∀ x ∈ e.locals, x.2.2 < k) :
    ∀ (args : List Arg) (tys : List Ty),
      argTysOf e args = .ok tys →
      (∀ v, Arg.lit v ∈ args → v ∈ lp) →
      ∃ refs, resolveArgs e lp args = some refs ∧ refs.length = tys.length ∧
        refs.all (ArgRef.inBounds e.consts.length e.wits.length lp.length k) = true := by
  intro args
  induction args with
  | nil =>
    intro tys h _
    simp only [argTysOf, Except.ok.injEq] at h
    refine ⟨[], rfl, ?_, rfl⟩
    rw [← h]
    rfl
  | cons a rest ih =>
    intro tys h hlit
    cases a with
    | lit v =>
      cases hr : argTysOf e rest with
      | error err =>
        simp only [argTysOf] at h
        rw [hr] at h
        exact Except.noConfusion h
      | ok ts =>
        simp only [argTysOf] at h
        rw [hr] at h
        simp only [Except.ok.injEq] at h
        obtain ⟨i, hi, hilt⟩ := idxOfLit_of_mem lp v (hlit v (by simp))
        obtain ⟨refs, hres, hlen, hbo⟩ := ih ts hr (fun w hw => hlit w (by simp [hw]))
        refine ⟨ArgRef.lit i :: refs, ?_, ?_, ?_⟩
        · simp [resolveArgs, resolveArg, hi, hres]
        · rw [← h]
          simp [hlen]
        · simp [List.all_cons, hbo, ArgRef.inBounds, hilt]
    | var n =>
      cases hl : e.lookupVarTy n with
      | none =>
        simp only [argTysOf] at h
        rw [hl] at h
        exact Except.noConfusion h
      | some t =>
        cases hr : argTysOf e rest with
        | error err =>
          simp only [argTysOf] at h
          rw [hl, hr] at h
          simp only [] at h
          exact Except.noConfusion h
        | ok ts =>
          simp only [argTysOf] at h
          rw [hl, hr] at h
          simp only [Except.ok.injEq] at h
          obtain ⟨r, hrr, hrb⟩ := resolveArg_var_ok e lp k hloc n t hl
          obtain ⟨refs, hres, hlen, hbo⟩ := ih ts hr (fun w hw => hlit w (by simp [hw]))
          refine ⟨r :: refs, ?_, ?_, ?_⟩
          · simp [resolveArgs, hrr, hres]
          · rw [← h]
            simp [hlen]
          · simp [List.all_cons, hbo, hrb]

theorem lowerStmts_ok (lp : List Nat) :
    ∀ (ss : List Stmt) (e : Env) (k : Nat),
      analyzeStmts e k ss = .ok () →
      (∀ x ∈ e.locals, x.2.2 < k) →
      (∀ s ∈ ss, ∀ v, Arg.lit v ∈ s.args → v ∈ lp) →
      ∃ is, lowerStmts lp e k ss = some is ∧
        instrsWf e.consts.length e.wits.length lp.length k is = true := by
  intro ss
  induction ss with
  | nil =>
    intro e k _ _ _
    exact ⟨[], rfl, rfl⟩
  | cons s rest ih =>
    intro e k han hloc hlit
    cases hat : argTysOf e s.args with
    | error err =>
      simp only [analyzeStmts] at han
      rw [hat] at han
      exact Except.noConfusion han
    | ok tys =>
      cases hcc : checkCall s.opcode tys with
      | error err =>
        simp only [analyzeStmts] at han
        rw [hat] at han
        simp only [] at han
        rw [hcc] at han
        exact Except.noConfusion han
      | ok u =>
        cases u
        have htys : tys = (Opcode.arg_types s.opcode).2 :=
          (checkCall_isOk_iff s.opcode tys).mp (by rw [hcc]; rfl)
        obtain ⟨refs, hres2, hlen, hbo⟩ :=
          resolveArgs_ok e lp k hloc s.args tys hat (fun v hv => hlit s (by simp) v hv)
        have hreflen : (decide (refs.length < 256)) = true := by
          have h2 := arg_types_len_le s.opcode
          rw [htys] at hlen
          simp only [decide_eq_true_eq]
          omega
        cases hresq : s.result with
        | none =>
          cases hrets : (Opcode.arg_types s.opcode).1 with
          | nil =>
            simp only [analyzeStmts] at han
            rw [hat] at han
            simp only [] at han
            rw [hcc] at han
            simp only [] at han
            rw [hresq, hrets] at han
            simp only [] at han
            obtain ⟨is, hlow, hwf⟩ :=
              ih e k han hloc (fun s2 hs2 => hlit s2 (by simp [hs2]))
            refine ⟨⟨s.opcode, refs, none⟩ :: is, ?_, ?_⟩
            · simp only [lowerStmts]
              rw [hres2]
              simp only []
              rw [hresq, hrets]
              simp only []
              rw [hlow]
            · simp only [instrsWf, instrWf, Bool.and_eq_true]
              exact ⟨⟨hreflen, hbo⟩, by simpa using hwf⟩
          | cons rt rts2 =>
            simp only [analyzeStmts] at han
            rw [hat] at han
            simp only [] at han
            rw [hcc] at han
            simp only [] at han
            rw [hresq, hrets] at han
            simp only [] at han
            exact Except.noConfusion han
        | some n =>
          cases hrets : (Opcode.arg_types s.opcode).1 with
          | nil =>
            simp only [analyzeStmts] at han
            rw [hat] at han
            simp only [] at han
            rw [hcc] at han
            simp only [] at han
            rw [hresq, hrets] at han
            simp only [] at han
            exact Except.noConfusion han
          | cons rt rts2 =>
            cases rts2 with
            | cons rt2 rts3 =>
              simp only [analyzeStmts] at han
              rw [hat] at han
              simp only [] at han
              rw [hcc] at han
              simp only [] at han
              rw [hresq, hrets] at han
              simp only [] at han
              exact Except.noConfusion han
            | nil =>
              simp only [analyzeStmts] at han
              rw [hat] at han
              simp only [] at han
              rw [hcc] at han
              simp only [] at han
              rw [hresq, hrets] at han
              simp only [] at han
              by_cases hd : e.declared n = true
              · rw [if_pos hd] at han
                exact Except.noConfusion han
              · rw [if_neg hd] at han
                have hloc2 : ∀ x ∈ (Env.mk e.consts e.wits ((n, rt, k) :: e.locals)).locals,
                    x.2.2 < k + 1 := by
                  intro x hx
                  simp only [List.mem_cons] at hx
                  rcases hx with hx | hx
                  · subst hx
                    simp
                  · have := hloc x hx
                    omega
                obtain ⟨is, hlow, hwf⟩ :=
                  ih ⟨e.consts, e.wits, (n, rt, k) :: e.locals⟩ (k + 1) han hloc2
                    (fun s2 hs2 => hlit s2 (by simp [hs2]))
                refine ⟨⟨s.opcode, refs, some k⟩ :: is, ?_, ?_⟩
                · simp only [lowerStmts]
                  rw [hres2]
                  simp only []
                  rw [hresq, hrets]
                  simp only []
                  rw [hlow]
                · simp only [instrsWf, instrWf, Bool.and_eq_true]
                  exact ⟨⟨hreflen, hbo⟩, by simpa using hwf⟩

theorem mem_insertLit_self (p : List Nat) (v : Nat) : v ∈ insertLit p v := by
  unfold insertLit
  by_cases h : v ∈ p
  · simp [h]
  · simp [h]

theorem mem_insertLit_mono (p : List Nat) (v w : Nat) (h : w ∈ p) : w ∈ insertLit p v := by
  unfold insertLit
  by_cases hv : v ∈ p
  · simpa [hv]
  · simp only [hv, if_false, List.mem_append]
    exact Or.inl h

theorem mem_foldl_litStep_mono :
    ∀ (args : List Arg) (p : List Nat) (w : Nat), w ∈ p → w ∈ args.foldl litStep p := by
  intro args
  induction args with
  | nil =>
    intro p w h
    simpa using h
  | cons a rest ih =>
    intro p w h
    simp only [List.foldl_cons]
    apply ih
    cases a with
    | var n => simpa [litStep] using h
    | lit v =>
      simp only [litStep]
      exact mem_insertLit_mono p v w h

theorem mem_foldl_litStep :
    ∀ (args : List Arg) (p : List Nat) (v : Nat),
      Arg.lit v ∈ args → v ∈ args.foldl litStep p := by
  intro args
  induction args with
  | nil =>
    intro p v h
    simp at h
  | cons a rest ih =>
    intro p v h
    simp only [List.foldl_cons]
    rcases List.mem_cons.mp h with h1 | h1
    · rw [← h1]
      simp only [litStep]
      exact mem_foldl_litStep_mono rest _ v (mem_insertLit_self p v)
    · exact ih _ v h1

theorem mem_stmtLits_fold_mono :
    ∀ (ss : List Stmt) (p : List Nat) (w : Nat), w ∈ p → w ∈ ss.foldl stmtLits p := by
  intro ss
  induction ss with
  | nil =>
    intro p w h
    simpa using h
  | cons s rest ih =>
    intro p w h
    simp only [List.foldl_cons]
    exact ih _ w (mem_foldl_litStep_mono s.args p w h)

theorem mem_literalPool_fold :
    ∀ (ss : List Stmt) (p : List Nat) (s : Stmt), s ∈ ss →
      ∀ v, Arg.lit v ∈ s.args → v ∈ ss.foldl stmtLits p := by
  intro ss
  induction ss with
  | nil =>
    intro p s h
    simp at h
  | cons s0 rest ih =>
    intro p s h v hv
    simp only [List.foldl_cons]
    rcases List.mem_cons.mp h with h1 | h1
    · subst h1
      exact mem_stmtLits_fold_mono rest _ v (mem_foldl_litStep s.args p v hv)
    · exact ih _ s h1 v hv

theorem analyzeStmts_of_analyze (a : Ast) (h : analyze a = true) :
    analyzeStmts ⟨a.constants, a.witnesses, []⟩ 0 a.statements = .ok () := by
  unfold analyze analyzeAst at h
  cases hcd : checkDecls [] (a.constants ++ a.witnesses) with
  | error err =>
    rw [hcd] at h
    simp [Except.isOk, Except.toBool] at h
  | ok u =>
    cases u
    rw [hcd] at h
    simp only [] at h
    cases hst : analyzeStmts ⟨a.constants, a.witnesses, []⟩ 0 a.statements with
    | error err =>
      rw [hst] at h
      simp [Except.isOk, Except.toBool] at h
    | ok u2 =>
      cases u2
      rfl

/-- The source program of spec section 8 "Concrete scenario A", as
written there: `witness Base a; witness Base b;` with body
`c = EcAdd(a, b); ConstrainInstance(c);` (names are the bytes of
"a", "b", "c"). -/
def astA : Ast :=
  ⟨[], [([97], Ty.Base), ([98], Ty.Base)],
   [⟨some [99], .EcAdd, [.var [97], .var [98]]⟩,
    ⟨none, .ConstrainInstance, [.var [99]]⟩]⟩

/-- The nearest well-typed variant of scenario A with the same shape
(2 witnesses, 0 constants, 2 instructions, the second consuming the
first's result): `witness MerklePath a; witness Base b;` with body
`c = CalculateMerkleRoot(a, b); ConstrainInstance(c);`. -/
def astM : Ast :=
  ⟨[], [([97], Ty.MerklePath), ([98], Ty.Base)],
   [⟨some [99], .CalculateMerkleRoot, [.var [97], .var [98]]⟩,
    ⟨none, .ConstrainInstance, [.var [99]]⟩]⟩

/-- The structured program the code generator derives from `astM`. -/
def progM : Program :=
  ⟨[], [[97], [98]], [],
   [⟨.CalculateMerkleRoot, [.wtns 0, .wtns 1], some 0⟩,
    ⟨.ConstrainInstance, [.prior 0], none⟩]⟩

/-- C1: for every semantically valid program, the compiler emits a
binary whose decoding reproduces exactly the pools and instruction
sequence the compiler derived from the analyzed AST, and compilation
is deterministic: the emitted bytes do not depend on any ambient
state. -/
theorem compile_decode_roundtrip (a : Ast) (h : analyze a = true) :
    (∃ bin p, compilePipeline a = some bin ∧ lower a = some p ∧ decode bin = some p) ∧
    (∀ s1 s2 : List Nat, (compileRun a s1).1 = (compileRun a s2).1 ∧
      (compileRun a s1).2 = s1) := by
  constructor
  · have hstmts := analyzeStmts_of_analyze a h
    obtain ⟨is, hlow, hwf⟩ :=
      lowerStmts_ok (literalPool a.statements) a.statements ⟨a.constants, a.witnesses, []⟩ 0
        hstmts (by intro x hx; simp at hx)
        (fun s hs v hv => mem_literalPool_fold a.statements [] s hs v hv)
    refine ⟨encode ⟨a.constants.map Prod.fst, a.witnesses.map Prod.fst,
              literalPool a.statements, is⟩,
            ⟨a.constants.map Prod.fst, a.witnesses.map Prod.fst,
              literalPool a.statements, is⟩, ?_, ?_, ?_⟩
    · unfold compilePipeline
      rw [if_pos h]
      unfold compile lower
      rw [hlow]
      rfl
    · unfold lower
      rw [hlow]
    · apply decode_encode
      unfold Program.wf
      simp only [List.length_map]
      exact hwf
  · intro s1 s2
    exact ⟨rfl, rfl⟩

/-- C1 witness: the round-trip theorem applied to the concrete valid
program `astM`. -/
theorem compile_decode_roundtrip_witness :
    analyze astM = true ∧
    ((∃ bin p, compilePipeline astM = some bin ∧ lower astM = some p ∧ decode bin = some p) ∧
     (∀ s1 s2 : List Nat, (compileRun astM s1).1 = (compileRun astM s2).1 ∧
       (compileRun astM s1).2 = s1)) :=
  ⟨by decide, compile_decode_roundtrip astM (by decide)⟩

/-- C7 counterexample: the scenario-A source program as written in the
claim is rejected by the semantic analyzer — `EcAdd` requires two
`EcPoint` arguments but `a` is declared `Base` — so compilation does
not succeed. -/
theorem scenarioA_rejected :
    analyzeAst astA = .error (.typeMismatch .EcAdd .EcPoint .Base) ∧
    analyze astA = false ∧
    compilePipeline astA = none :=
  ⟨rfl, rfl, rfl⟩

/-- C7 (amended): for the well-typed variant `astM` of scenario A
(`witness MerklePath a; witness Base b;` body
`c = CalculateMerkleRoot(a, b); ConstrainInstance(c);`), compilation
succeeds and decoding the result lists 2 witnesses, 0 constants and
2 instructions, the second instruction referencing the first
instruction's result slot. -/
theorem scenarioA_amended_roundtrip :
    analyze astM = true ∧
    compilePipeline astM = some (encode progM) ∧
    decode (encode progM) = some progM ∧
    progM.constants.length = 0 ∧
    progM.witnesses.length = 2 ∧
    progM.instructions.length = 2 ∧
    progM.instructions =
      [⟨.CalculateMerkleRoot, [.wtns 0, .wtns 1], some 0⟩,
       ⟨.ConstrainInstance, [.prior 0], none⟩] := by
  refine ⟨by decide, ?_, ?_, rfl, rfl, rfl, rfl⟩
  · rfl
  · rfl
